import Mathlib

/-!
Verification development for the `simplex` pattern-matching library.

The repository's `simplex.js` contains several revisions of the library.
The main embedding below (`Simplex.*` without suffix) models the revision at
lines 5-318 of `src/simplex.js` (the one with `weakParse`, `fieldMarkers`
and `strictWhitespace`).  A second namespace `V3` models the revision at
lines 634-806 (the one whose constructor routes its options through
`parseOptions`, accepting regex-style flag strings).

Strings are modelled as `List Char`; JavaScript objects used as match
results are modelled as insertion-ordered association lists with
JavaScript's property-assignment semantics (`jsSet`).  The external regular
expression engine (an explicit collaborator in the spec) is modelled by a
small backtracking matcher over the regex fragment that the compiler
emits: literal characters, escaped characters, the classes `\w`, `\s`,
`\d`, the wildcard `.`, the quantifiers `*`, `+`, `?` on single-character
atoms, and capturing groups.  Its match-preference order (leftmost match,
greedy quantifiers with backtracking) follows JavaScript's.
-/

/-- JavaScript strings, modelled as lists of characters. -/
abbrev Str := List Char

/-- The character set of JavaScript's `\w` (letters, digits, underscore). -/
def isWordC (c : Char) : Bool := c.isAlpha || c.isDigit || c = '_'

/-- The character set of JavaScript's `\s` (ASCII whitespace). -/
def isWs (c : Char) : Bool :=
  c = ' ' || c = '\t' || c = '\n' || c = '\r' || c = '\x0b' || c = '\x0c'

/-- The characters escaped by `escapeRegex` (src/simplex.js line 306):
`( ) [ ] { } ^ $`. -/
def isMeta (c : Char) : Bool :=
  c = '(' || c = ')' || c = '[' || c = ']' ||
  c = '\x7b' || c = '\x7d' || c = '^' || c = '$'

/-- Numeric value of an all-digit string, as JavaScript's `Number` computes
it on such strings. -/
def natOfDigits (s : Str) : Nat :=
  s.foldl (fun n c => 10 * n + (c.toNat - 48)) 0

/-- A JavaScript value as it can appear in a match-result object:
a string, a number, a boolean, or `undefined`. -/
inductive JsValue where
  | str (s : Str)
  | num (n : Nat)
  | bool (b : Bool)
  | undef
deriving DecidableEq, Repr

/-- A JavaScript object used as a match result: an insertion-ordered list
of properties. -/
abbrev JsObj := List (Str × JsValue)

/-- JavaScript property assignment `data[k] = v`: updates the value in
place if the key exists, otherwise appends the property. -/
def jsSet : JsObj → Str → JsValue → JsObj
  | [], k, v => [(k, v)]
  | (k', v') :: rest, k, v =>
      if k' = k then (k', v) :: rest else (k', v') :: jsSet rest k v

/-- JavaScript property read `data[k]` (distinguishing an absent key from
one set to `undefined`). -/
def jsLookup : JsObj → Str → Option JsValue
  | [], _ => none
  | (k', v') :: rest, k => if k' = k then some v' else jsLookup rest k

/-- Read entry `j` of a JavaScript array of captures; out-of-range reads
and holes both give `undefined` (`none`). -/
def arrGet (m : List (Option Str)) (j : Nat) : Option Str :=
  match m.get? j with
  | some (some s) => some s
  | _ => none

/-- JavaScript substring extraction `s.substring(a, b)` for `a ≤ b`
(characters in `[a, b)`). -/
def substrL (s : Str) (a b : Nat) : Str := (s.drop a).take (b - a)

/-- Whether `p` is a prefix of `s` (used to model literal scanning). -/
def isPrefixL : Str → Str → Bool
  | [], _ => true
  | _ :: _, [] => false
  | a :: as, b :: bs => a = b && isPrefixL as bs

/-- Whether `p` occurs as a contiguous substring of `s`. -/
def isInfixL (p s : Str) : Bool := s.tails.any (isPrefixL p)

/-- `escapeRegex` (src/simplex.js lines 305-307): backslash-escapes the
characters `( ) [ ] { } ^ $` and leaves every other character alone. -/
def escapeRegexL : Str → Str
  | [] => []
  | c :: cs => if isMeta c then '\\' :: c :: escapeRegexL cs else c :: escapeRegexL cs

/-- The whitespace widening `segment.replace(/\s+/g, '\\s+')` of
`getPatternSegment` (line 278): each maximal run of whitespace becomes the
three characters `\s+`.  The boolean state records whether the previous
character belonged to a whitespace run already replaced. -/
def widen2 : Bool → Str → Str
  | _, [] => []
  | b, c :: cs =>
      if isWs c then
        if b then widen2 true cs else '\\' :: 's' :: '+' :: widen2 true cs
      else c :: widen2 false cs

/-- How the user may supply the `fieldMarkers` option in the revision at
lines 5-318: absent, a single string, or a two-element array. -/
inductive FmInput where
  | absent
  | str (s : Str)
  | pair (l r : Str)
deriving DecidableEq

/-- The resolved options object of the main revision. -/
structure SOptions where
  global : Bool := false
  fieldMarkers : FmInput := .absent
  strictWhitespace : Bool := false
deriving DecidableEq

/-- `parseFieldMarkers` (lines 231-244): falsy input (including the empty
string) gives `null`; a string is split at `input.length / 2`, where
JavaScript's `substring` truncates the fractional index (so an odd-length
string puts its middle character in the right marker only); an array is
returned as the pair of its two elements. -/
def parseFieldMarkers : FmInput → Option (Str × Str)
  | .absent => none
  | .str s =>
      if s = [] then none
      else some (s.take (s.length / 2), s.drop (s.length / 2))
  | .pair l r => some (l, r)

/-- `getPatternSegment` (lines 274-282): escape the literal segment and,
unless `strictWhitespace` is set, widen each whitespace run to `\s+`. -/
def getPatternSegment (seg : Str) (opts : SOptions) : Str :=
  let e := escapeRegexL seg
  if opts.strictWhitespace then e else widen2 false e

/-- `isMultiwordToken` (lines 290-296): with a truthy right marker, test
whether `*` followed by the right marker occurs in the raw token text;
otherwise test whether the raw token ends in `*`. -/
def isMultiwordToken (raw : Str) (fm : Option (Str × Str)) : Bool :=
  match fm with
  | some (_, r) => if r ≠ [] then isInfixL ('*' :: r) raw else raw.getLast? = some '*'
  | none => raw.getLast? = some '*'

/-- One match of the token-scanner regex over the pattern expression:
the field name (capture group 1), the match's start index, the length of
the whole match, and its raw text. -/
structure Token where
  name : Str
  start : Nat
  rawLen : Nat
  raw : Str
deriving DecidableEq

/-- Build the token for a scanner match at offset `q` whose whole match
has length `rawLen` and whose field name is `name`. -/
def mkToken (expr : Str) (q rawLen : Nat) (name : Str) : Token :=
  { name := name, start := q, rawLen := rawLen, raw := substrL expr q (q + rawLen) }

/-- Backtracking over the word-run length of the scanner regex
`left(\w+)\*?right`: try the name lengths `k+1, k, ..., 1`, for each
preferring the variant that consumes a `*` (the greedy `\*?`), and require
the right marker to follow literally. -/
def pickK (l r expr : Str) (q : Nat) (run : Str) : Nat → Option Token
  | 0 => none
  | k + 1 =>
      let base := q + l.length
      let afterName := base + (k + 1)
      if expr.get? afterName = some '*' && isPrefixL r (expr.drop (afterName + 1)) then
        some (mkToken expr q (l.length + (k + 1) + 1 + r.length) (run.take (k + 1)))
      else if isPrefixL r (expr.drop afterName) then
        some (mkToken expr q (l.length + (k + 1) + r.length) (run.take (k + 1)))
      else
        pickK l r expr q run k

/-- Try to match the token-scanner regex at offset `q` of the expression:
the left marker literally, then at least one word character, then an
optional `*`, then the right marker literally.  This models
`getTokenMatcher` (lines 255-264) for marker strings whose characters the
escaping renders literal (every marker used by the repository); with no
markers both sides are empty and this is exactly `/(\w+)\*?/`. -/
def tryTokenAt (l r expr : Str) (q : Nat) : Option Token :=
  if isPrefixL l (expr.drop q) then
    let run := (expr.drop (q + l.length)).takeWhile isWordC
    if run.length = 0 then none else pickK l r expr q run run.length
  else none

/-- Leftmost scanner match at offset `≥ q` (the `g`-flag `exec` search). -/
def findToken (l r expr : Str) : Nat → Nat → Option Token
  | 0, _ => none
  | f + 1, q =>
      if q > expr.length then none
      else
        match tryTokenAt l r expr q with
        | some t => some t
        | none => findToken l r expr f (q + 1)

/-- The full `while (tokenMatch = tokenMatcher.exec(expression))` scan:
successive non-overlapping scanner matches in left-to-right order. -/
def scanT (l r expr : Str) : Nat → Nat → List Token
  | 0, _ => []
  | f + 1, pos =>
      match findToken l r expr (expr.length + 2) pos with
      | none => []
      | some t => t :: scanT l r expr f (t.start + t.rawLen)

/-- All scanner matches of the token matcher over the expression. -/
def scanTokens (l r expr : Str) : List Token :=
  scanT l r expr (expr.length + 1) 0

/-- The compiled matcher: the assembled regex source and the ordered field
names (`{pattern, map}` of `createMatcher`). -/
structure Matcher where
  pattern : Str
  map : List Str
deriving DecidableEq

/-- The capturing placeholder appended for one token (lines 199-203):
`(.*)`for a multi-word token, `(\w+)` otherwise. -/
def placeholderFor (fm : Option (Str × Str)) (t : Token) : Str :=
  if isMultiwordToken t.raw fm then "(.*)".data else "(\\w+)".data

/-- The pattern-assembly loop of `createMatcher` (lines 196-212): for each
token, append the escaped/widened literal segment before it and its
capturing placeholder; after the last token append the remaining literal
(line 210 checks `index < expression.length`). -/
def assemble (expr : Str) (opts : SOptions) (fm : Option (Str × Str)) :
    List Token → Nat → Str
  | [], i =>
      if i < expr.length then getPatternSegment (substrL expr i expr.length) opts else []
  | t :: ts, i =>
      getPatternSegment (substrL expr i t.start) opts ++ placeholderFor fm t ++
        assemble expr opts fm ts (t.start + t.rawLen)

/-- `createMatcher` (lines 188-218). -/
def createMatcher (expr : Str) (opts : SOptions) : Matcher :=
  let fm := parseFieldMarkers opts.fieldMarkers
  let lr := fm.getD ([], [])
  let toks := scanTokens lr.1 lr.2 expr
  { pattern := assemble expr opts fm toks 0, map := toks.map Token.name }

/-- `weakParse` (lines 154-162).  An all-digit string becomes a number; a
string matching `/^(?:true|false)$/` is passed to JavaScript's `Boolean`,
whose value on a *non-empty string* is always `true` (string truthiness);
anything else is returned unchanged.  `undefined` input (from a missing
capture) fails both regex tests and is returned unchanged. -/
def weakParse : Option Str → JsValue
  | none => .undef
  | some s =>
      if s ≠ [] ∧ s.all Char.isDigit then .num (natOfDigits s)
      else if s = "true".data ∨ s = "false".data then .bool (!s.isEmpty)
      else .str s

/-- The loop body of `mapMatch` (lines 132-141): `m` is the raw match
array (full match at index 0, captures from index 1), `i` the loop
counter, `names` the remaining field names.  The guard `i > match.length`
breaks out of the loop; otherwise `data[map[i]] = weakParse(match[i+1])`. -/
def mapMatchGo (m : List (Option Str)) : Nat → List Str → JsObj → JsObj
  | _, [], data => data
  | i, n :: rest, data =>
      if i > m.length then data
      else mapMatchGo m (i + 1) rest (jsSet data n (weakParse (arrGet m (i + 1))))

/-- `mapMatch` (lines 132-141). -/
def mapMatch (m : List (Option Str)) (names : List Str) : JsObj :=
  mapMatchGo m 0 names []

/-- A single-character matcher of the modelled regex fragment: a literal
character, `\w`, `\s`, `\d`, or the wildcard `.` (which in JavaScript does
not match line terminators). -/
inductive CharCls where
  | lit (c : Char)
  | word
  | space
  | digit
  | any
deriving DecidableEq

/-- Whether a character matches a single-character matcher. -/
def clsMatch : CharCls → Char → Bool
  | .lit c', c => c = c'
  | .word, c => isWordC c
  | .space, c => isWs c
  | .digit, c => c.isDigit
  | .any, c => !(c = '\n' || c = '\r')

/-- An atom of the modelled regex fragment: a single-character matcher,
optionally quantified, or a capturing group (numbered by the order of its
opening parenthesis). -/
inductive RAtom where
  | one (k : CharCls)
  | star (k : CharCls)
  | plus (k : CharCls)
  | opt (k : CharCls)
  | group (idx : Nat) (inner : List RAtom)

/-- Escape sequences understood by the modelled engine.  Only the
sequences the compiler can emit are interpreted (`\w`, `\s`, `\d`, and the
backslash-escaped literals); anything else is unsupported. -/
def escCls (c : Char) : Option CharCls :=
  if c = 'w' then some .word
  else if c = 's' then some .space
  else if c = 'd' then some .digit
  else if isMeta c || c = '\\' || c = '*' || c = '+' || c = '?' || c = '.' || c = '|' || c = '/' then
    some (.lit c)
  else none

/-- Attach a following quantifier (if any) to a single-character atom. -/
def applyQ (k : CharCls) (s : Str) : RAtom × Str :=
  match s with
  | '*' :: r => (.star k, r)
  | '+' :: r => (.plus k, r)
  | '?' :: r => (.opt k, r)
  | _ => (.one k, s)

/-- Parse a regex source into a sequence of atoms, stopping at `)` or at
the end; `idx` numbers capturing groups by opening-parenthesis order.
Returns the atoms, the next group index, and the unconsumed rest.
Constructs outside the modelled fragment (character classes, alternation,
quantified groups, unknown escapes) are rejected. -/
def parseSeq : Nat → Nat → Str → Option (List RAtom × Nat × Str)
  | 0, _, _ => none
  | _ + 1, idx, [] => some ([], idx, [])
  | f + 1, idx, c :: rest =>
      if c = ')' then some ([], idx, ')' :: rest)
      else if c = '\\' then
        match rest with
        | [] => none
        | e :: rest' =>
            match escCls e with
            | none => none
            | some kd =>
                let (a, rest'') := applyQ kd rest'
                match parseSeq f idx rest'' with
                | some (ats, idx', r) => some (a :: ats, idx', r)
                | none => none
      else if c = '(' then
        match parseSeq f (idx + 1) rest with
        | some (inner, idx', ')' :: rest') =>
            match rest' with
            | '*' :: _ => none
            | '+' :: _ => none
            | '?' :: _ => none
            | _ =>
                match parseSeq f idx' rest' with
                | some (ats, idx'', r) => some (.group idx inner :: ats, idx'', r)
                | none => none
        | _ => none
      else if c = '.' then
        let (a, rest') := applyQ .any rest
        match parseSeq f idx rest' with
        | some (ats, idx', r) => some (a :: ats, idx', r)
        | none => none
      else if c = '*' || c = '+' || c = '?' || c = '[' || c = '|' then none
      else
        let (a, rest') := applyQ (.lit c) rest
        match parseSeq f idx rest' with
        | some (ats, idx', r) => some (a :: ats, idx', r)
        | none => none

/-- Parse a whole regex source: the atom sequence and the number of
capturing groups.  Fails on sources outside the modelled fragment (where
the JavaScript engine would be needed in full, or would itself throw). -/
def regexParse (pat : Str) : Option (List RAtom × Nat) :=
  match parseSeq (pat.length + 1) 0 pat with
  | some (ats, idx, []) => some (ats, idx)
  | _ => none

/-- Length of the maximal prefix of `s` matching a single-character
matcher (the greedy first try of `*`/`+`). -/
def countRun (k : CharCls) (s : Str) : Nat := (s.takeWhile (clsMatch k)).length

/-- Result threaded through the backtracking matcher: the unconsumed rest
of the input and the capture list. -/
abbrev MRes := Str × List (Option Str)

/-- Backtracking matcher for an atom sequence against a prefix of `s`,
in JavaScript preference order: quantifiers are greedy (longest first,
`?` with the character first), alternatives are tried by backtracking, and
a capturing group records the text its body consumed.  The continuation
`k` receives the unconsumed input and the captures; fuel only bounds the
recursion and is chosen large enough never to run out. -/
def matchSeqF : Nat → List RAtom → Str → List (Option Str) →
    (Str → List (Option Str) → Option MRes) → Option MRes
  | 0, _, _, _, _ => none
  | _ + 1, [], s, caps, k => k s caps
  | f + 1, .one kd :: rest, s, caps, k =>
      match s with
      | [] => none
      | c :: s' => if clsMatch kd c then matchSeqF f rest s' caps k else none
  | f + 1, .star kd :: rest, s, caps, k =>
      ((List.range (countRun kd s + 1)).reverse).findSome?
        (fun j => matchSeqF f rest (s.drop j) caps k)
  | f + 1, .plus kd :: rest, s, caps, k =>
      ((List.range (countRun kd s)).reverse).findSome?
        (fun j => matchSeqF f rest (s.drop (j + 1)) caps k)
  | f + 1, .opt kd :: rest, s, caps, k =>
      match s with
      | [] => matchSeqF f rest s caps k
      | c :: s' =>
          if clsMatch kd c then
            match matchSeqF f rest s' caps k with
            | some r => some r
            | none => matchSeqF f rest s caps k
          else matchSeqF f rest s caps k
  | f + 1, .group i inner :: rest, s, caps, k =>
      matchSeqF f inner s caps
        (fun s' caps' =>
          matchSeqF f rest s' (caps'.set i (some (s.take (s.length - s'.length)))) k)

/-- Try the parsed pattern at each position `p, p+1, ...` (with `n`
positions left to try) and return the first (leftmost) full match: its
index, matched text, and captures. -/
def searchLoopF (ast : List RAtom) (nG : Nat) (text : Str) (fuelM : Nat) :
    Nat → Nat → Option (Nat × Str × List (Option Str))
  | 0, _ => none
  | n + 1, p =>
      match matchSeqF fuelM ast (text.drop p) (List.replicate nG none)
          (fun rem caps => some (rem, caps)) with
      | some (rem, caps) =>
          some (p, (text.drop p).take (text.length - p - rem.length), caps)
      | none => searchLoopF ast nG text fuelM n (p + 1)

/-- `pattern.exec(text)` with `lastIndex = i`: the leftmost match at a
position `≥ i`.  Returns `none` when the pattern has no match there or
lies outside the modelled regex fragment. -/
def jsExec (pat : Str) (text : Str) (i : Nat) :
    Option (Nat × Str × List (Option Str)) :=
  match regexParse pat with
  | none => none
  | some (ast, nG) =>
      searchLoopF ast nG text (2 * pat.length + 4) (text.length + 1 - i) i

/-- Outcome of the `while (regexMatch = pattern.exec(text))` loop of
`matchAll` (lines 109-120).  `diverges` records that the loop reached a
state it cannot leave: `exec` found a match that does not advance
`lastIndex` (a zero-length match at `lastIndex`), so the deterministic
loop re-finds the same match forever.  `fuelOut` is unreachable for the
chosen fuel, since every other iteration strictly advances `lastIndex`. -/
inductive Outcome where
  | terminates (rs : List JsObj)
  | diverges
  | fuelOut
deriving DecidableEq

/-- The value `match(text)` evaluates to: a single result (or `null`), or
— in global mode — the outcome of `matchAll`. -/
inductive MatchOut where
  | single (r : Option JsObj)
  | all (o : Outcome)
deriving DecidableEq

/-- The `matchAll` loop (lines 114-117): run `exec` from `lastIndex = i`,
map each raw match onto the field names, and continue after the match's
end; a match that fails to advance `lastIndex` makes the JavaScript loop
run forever (`diverges`). -/
def matchAllLoopF (pat : Str) (names : List Str) (text : Str) :
    Nat → Nat → List JsObj → Outcome
  | 0, _, _ => .fuelOut
  | f + 1, i, acc =>
      match jsExec pat text i with
      | none => .terminates acc.reverse
      | some (p, full, caps) =>
          if i < p + full.length then
            matchAllLoopF pat names text f (p + full.length)
              (mapMatch (some full :: caps) names :: acc)
          else .diverges

/-- How the constructor may receive its `options` argument. -/
inductive OptionsArg where
  | undef
  | flagStr (s : Str)
  | obj (o : SOptions)

/-- Line 34: `this.options = (typeof options === 'object' && options) || {}`
— an object is used as-is, anything else (including a flag string) is
replaced by the empty options object. -/
def effOptions : OptionsArg → SOptions
  | .obj o => o
  | _ => {}

/-- A constructed `Simplex` instance (lines 29-36): its resolved options
and its compiled matcher. -/
structure Simplex where
  options : SOptions
  matcher : Matcher

/-- `new Simplex(expression, options)` (lines 29-36). -/
def Simplex.construct (expr : Str) (arg : OptionsArg) : Simplex :=
  let o := effOptions arg
  { options := o, matcher := createMatcher expr o }

/-- `Simplex(expression, options)` called as a plain function: the guard
at lines 30-32 sees `this` is not an instance and returns
`new Simplex(expression, options)`. -/
def Simplex.callAsFunction (expr : Str) (arg : OptionsArg) : Simplex :=
  Simplex.construct expr arg

/-- `matchAll` (lines 109-120). -/
def matchAllOp (inst : Simplex) (text : Str) : Outcome :=
  matchAllLoopF inst.matcher.pattern inst.matcher.map text (text.length + 2) 0 []

/-- `match` (lines 75-85): delegate to `matchAll` when `options.global`
is set; otherwise run the pattern once and map the captures, or return
`null` when there is no match. -/
def matchOp (inst : Simplex) (text : Str) : MatchOut :=
  if inst.options.global then .all (matchAllOp inst text)
  else
    match jsExec inst.matcher.pattern text 0 with
    | none => .single none
    | some (_, full, caps) =>
        .single (some (mapMatch (some full :: caps) inst.matcher.map))

namespace V3

/-- How the constructor of the revision at lines 634-806 may receive its
`options` argument: a flag string, an object with a `global` key, or
nothing. -/
inductive OptArg where
  | undef
  | flagStr (s : Str)
  | obj (global : Bool)

/-- The resolved options of that revision. -/
structure Opts where
  global : Bool
deriving DecidableEq

/-- `parseOptions` (lines 794-804): a string option sets `global` iff it
contains the character `g` (`/g/.test(options)`); otherwise the truthiness
of the object's `global` key is used, any other shape giving `false`. -/
def parseOptions : OptArg → Opts
  | .flagStr s => { global := 'g' ∈ s }
  | .obj g => { global := g }
  | .undef => { global := false }

/-- One word-run match of this revision's token matcher `/\w+/g`. -/
structure Tok where
  start : Nat
  run : Str
deriving DecidableEq

/-- Leftmost `/\w+/` match at offset `≥ q`: the maximal word-character run
starting at the first word character. -/
def findRun (expr : Str) : Nat → Nat → Option Tok
  | 0, _ => none
  | f + 1, q =>
      if q ≥ expr.length then none
      else
        let run := (expr.drop q).takeWhile isWordC
        if run.length = 0 then findRun expr f (q + 1)
        else some { start := q, run := run }

/-- The `while (tokenMatch = tokenMatcher.exec(expression))` scan of this
revision (lines 757-761). -/
def scanR (expr : Str) : Nat → Nat → List Tok
  | 0, _ => []
  | f + 1, pos =>
      match findRun expr (expr.length + 1) pos with
      | none => []
      | some t => t :: scanR expr f (t.start + t.run.length)

/-- The pattern-assembly loop of this revision's `createMatcher`
(lines 757-765): escaped literal segments (no whitespace widening) and a
`(\w+)` placeholder per token.  Line 763 appends the final literal only
when `index < expression.length - 1`, dropping a single trailing literal
character. -/
def assemble3 (expr : Str) : List Tok → Nat → Str
  | [], i =>
      if i < expr.length - 1 then escapeRegexL (substrL expr i expr.length) else []
  | t :: ts, i =>
      escapeRegexL (substrL expr i t.start) ++ "(\\w+)".data ++
        assemble3 expr ts (t.start + t.run.length)

/-- `createMatcher` of the revision at lines 750-771: every word run is a
field, its own text being the field name. -/
def createMatcher (expr : Str) : Matcher :=
  let toks := scanR expr (expr.length + 1) 0
  { pattern := assemble3 expr toks 0, map := toks.map Tok.run }

/-- A constructed instance of this revision (lines 656-663). -/
structure Inst where
  options : Opts
  matcher : Matcher

/-- `new Simplex(expression, options)` for this revision: the matcher is
compiled from the expression alone, the options via `parseOptions`. -/
def construct (expr : Str) (arg : OptArg) : Inst :=
  { options := parseOptions arg, matcher := createMatcher expr }

/-- `mapMatch` of this revision (lines 731-740): same loop and guard as
the main revision, but the captured strings are stored without weak type
inference. -/
def mapMatchGo3 (m : List (Option Str)) : Nat → List Str → JsObj → JsObj
  | _, [], data => data
  | i, n :: rest, data =>
      if i > m.length then data
      else
        let v := match arrGet m (i + 1) with
          | some s => JsValue.str s
          | none => JsValue.undef
        mapMatchGo3 m (i + 1) rest (jsSet data n v)

/-- `mapMatch` of this revision. -/
def mapMatch3 (m : List (Option Str)) (names : List Str) : JsObj :=
  mapMatchGo3 m 0 names []

/-- `matchAll` of this revision (lines 708-719): the same exec loop. -/
def matchAllLoop3 (pat : Str) (names : List Str) (text : Str) :
    Nat → Nat → List JsObj → Outcome
  | 0, _, _ => .fuelOut
  | f + 1, i, acc =>
      match jsExec pat text i with
      | none => .terminates acc.reverse
      | some (p, full, caps) =>
          if i < p + full.length then
            matchAllLoop3 pat names text f (p + full.length)
              (mapMatch3 (some full :: caps) names :: acc)
          else .diverges

/-- `matchAll` of this revision. -/
def matchAllOp3 (inst : Inst) (text : Str) : Outcome :=
  matchAllLoop3 inst.matcher.pattern inst.matcher.map text (text.length + 2) 0 []

/-- `match` of this revision (lines 696-706): delegates to `matchAll`
when `options.global` is set. -/
def matchOp3 (inst : Inst) (text : Str) : MatchOut :=
  if inst.options.global then .all (matchAllOp3 inst text)
  else
    match jsExec inst.matcher.pattern text 0 with
    | none => .single none
    | some (_, full, caps) =>
        .single (some (mapMatch3 (some full :: caps) inst.matcher.map))

end V3

/-- Count the capturing groups of a regex source string, scanning left to
right: `esc` records a pending backslash (the next character is literal),
`ic` records being inside a character class `[...]`; an unescaped `(`
outside a class opens a capturing group unless followed by `?`. -/
def cnt1 (esc ic : Bool) : Str → Nat
  | [] => 0
  | c :: r =>
      if esc then cnt1 false ic r
      else if c = '\\' then cnt1 true ic r
      else if ic then (if c = ']' then cnt1 false false r else cnt1 false true r)
      else if c = '(' then
        (if r.head? = some '?' then cnt1 false false r else 1 + cnt1 false false r)
      else if c = '[' then cnt1 false true r
      else cnt1 false false r

/-- The number of capturing groups in a regex source string. -/
def countCaptureGroups (pat : Str) : Nat := cnt1 false false pat

/-- Written from the spec's words (section 4.2 step 2b): the output
pattern is the literal segment with every maximal run of whitespace
widened to the three characters `\s+` ("one-or-more whitespace of any
kind"), all other characters kept verbatim. -/
inductive SpecWidensTo : Str → Str → Prop where
  | nil : SpecWidensTo [] []
  | nonws (c : Char) (rest out : Str) : isWs c = false → SpecWidensTo rest out →
      SpecWidensTo (c :: rest) (c :: out)
  | wsRun (run rest out : Str) : run ≠ [] → (∀ c ∈ run, isWs c = true) →
      (∀ c, rest.head? = some c → isWs c = false) → SpecWidensTo rest out →
      SpecWidensTo (run ++ rest) ('\\' :: 's' :: '+' :: out)

/-- Strings over which the group counter stays neutral: a concatenation of
escape pairs `\c` and of plain characters that are none of `\`, `(`, `[`.
Every literal segment the compiler emits for a backslash-free expression
has this shape. -/
inductive SegSafe : Str → Prop where
  | nil : SegSafe []
  | esc (c : Char) (rest : Str) : SegSafe rest → SegSafe ('\\' :: c :: rest)
  | plain (c : Char) (rest : Str) : c ≠ '\\' → c ≠ '(' → c ≠ '[' → SegSafe rest →
      SegSafe (c :: rest)

/-- Shape of `escapeRegex` output on backslash-free input: escape pairs
`\m` with `m` a metacharacter, interleaved with plain non-meta,
non-backslash characters. -/
inductive EscForm : Str → Prop where
  | nil : EscForm []
  | esc (c : Char) (rest : Str) : isMeta c = true → EscForm rest →
      EscForm ('\\' :: c :: rest)
  | plain (c : Char) (rest : Str) : isMeta c = false → c ≠ '\\' → EscForm rest →
      EscForm (c :: rest)

theorem jsLookup_set (o : JsObj) (k k' : Str) (v : JsValue) :
    jsLookup (jsSet o k v) k' = if k' = k then some v else jsLookup o k' := by
  induction o with
  | nil =>
      by_cases h : k' = k
      · subst h; simp [jsSet, jsLookup]
      · simp [jsSet, jsLookup, h, Ne.symm h]
  | cons p rest ih =>
      obtain ⟨a, b⟩ := p
      by_cases hak : a = k
      · subst hak
        by_cases h : a = k'
        · subst h
          simp [jsSet, jsLookup]
        · simp [jsSet, jsLookup, h, Ne.symm h]
      · by_cases h1 : a = k'
        · subst h1
          simp [jsSet, jsLookup, hak, Ne.symm hak, ih]
        · simp [jsSet, jsLookup, hak, h1, ih]

theorem widen2_true_eq (l : Str) : widen2 true l = widen2 false (l.dropWhile isWs) := by
  induction l with
  | nil => rfl
  | cons c cs ih =>
      by_cases h : isWs c
      · simp [widen2, List.dropWhile, h, ih]
      · simp [widen2, List.dropWhile, h]

theorem head_dropWhile_not (p : Char → Bool) (l : Str) (c : Char)
    (h : (l.dropWhile p).head? = some c) : p c = false := by
  induction l with
  | nil => simp [List.dropWhile] at h
  | cons a as ih =>
      by_cases hp : p a
      · exact ih (by simpa [List.dropWhile, hp] using h)
      · have : a = c := by simpa [List.dropWhile, hp] using h
        subst this
        simpa using hp

theorem specWidens (l : Str) : SpecWidensTo l (widen2 false l) := by
  match l with
  | [] => exact .nil
  | c :: cs =>
      by_cases h : isWs c
      · have hsplit : c :: cs = (c :: cs.takeWhile isWs) ++ cs.dropWhile isWs := by
          simp [List.takeWhile_append_dropWhile]
        have hout : widen2 false (c :: cs) =
            '\\' :: 's' :: '+' :: widen2 false (cs.dropWhile isWs) := by
          simp [widen2, h, widen2_true_eq]
        rw [hout, show (c :: cs : Str) = (c :: cs.takeWhile isWs) ++ cs.dropWhile isWs from hsplit]
        refine .wsRun _ _ _ (by simp) ?_ ?_ (specWidens (cs.dropWhile isWs))
        · intro x hx
          rcases List.mem_cons.mp hx with hx | hx
          · subst hx; exact h
          · exact List.mem_takeWhile_imp hx
        · intro x hx
          exact head_dropWhile_not isWs cs x hx
      · have hout : widen2 false (c :: cs) = c :: widen2 false cs := by
          simp [widen2, h]
        rw [hout]
        exact .nonws c cs _ (by simpa using h) (specWidens cs)
termination_by l.length
decreasing_by
  · have := ((List.dropWhile_suffix (l := cs) isWs).sublist).length_le
    simp
    omega
  · simp

theorem cnt_segSafe {a : Str} (h : SegSafe a) (m : Str) :
    cnt1 false false (a ++ m) = cnt1 false false m := by
  induction h with
  | nil => rfl
  | esc c rest _ ih => simpa [cnt1] using ih
  | plain c rest h1 h2 h3 _ ih => simpa [cnt1, h1, h2, h3] using ih

theorem cnt_word_ph (m : Str) :
    cnt1 false false ("(\\w+)".data ++ m) = 1 + cnt1 false false m := by
  show cnt1 false false ('(' :: '\\' :: 'w' :: '+' :: ')' :: m) = 1 + cnt1 false false m
  simp [cnt1]

theorem cnt_dotstar_ph (m : Str) :
    cnt1 false false ("(.*)".data ++ m) = 1 + cnt1 false false m := by
  show cnt1 false false ('(' :: '.' :: '*' :: ')' :: m) = 1 + cnt1 false false m
  simp [cnt1]

theorem cnt_placeholder (fm : Option (Str × Str)) (t : Token) (m : Str) :
    cnt1 false false (placeholderFor fm t ++ m) = 1 + cnt1 false false m := by
  unfold placeholderFor
  by_cases h : isMultiwordToken t.raw fm
  · rw [if_pos h]; exact cnt_dotstar_ph m
  · rw [if_neg h]; exact cnt_word_ph m

theorem meta_not_ws {c : Char} (h : isMeta c = true) : isWs c = false := by
  simp only [isMeta, Bool.or_eq_true, decide_eq_true_eq] at h
  rcases h with ((((((h | h) | h) | h) | h) | h) | h) | h <;> subst h <;> decide

theorem escForm_escapeRegexL {l : Str} (h : '\\' ∉ l) : EscForm (escapeRegexL l) := by
  induction l with
  | nil => exact .nil
  | cons c cs ih =>
      have hc : c ≠ '\\' := fun hc => h (hc ▸ List.mem_cons_self c cs)
      have hcs : '\\' ∉ cs := fun hm => h (List.mem_cons_of_mem c hm)
      by_cases hm : isMeta c
      · simpa [escapeRegexL, hm] using EscForm.esc c _ hm (ih hcs)
      · simpa [escapeRegexL, hm] using
          EscForm.plain c _ (by simpa using hm) hc (ih hcs)

theorem segSafe_of_escForm {l : Str} (h : EscForm l) : SegSafe l := by
  induction h with
  | nil => exact .nil
  | esc c rest _ _ ih => exact .esc c rest ih
  | plain c rest hm hne _ ih =>
      refine .plain c rest hne ?_ ?_ ih
      · intro hc; subst hc; simp [isMeta] at hm
      · intro hc; subst hc; simp [isMeta] at hm

theorem segSafe_widen {l : Str} (h : EscForm l) : ∀ b, SegSafe (widen2 b l) := by
  induction h with
  | nil => intro b; exact .nil
  | esc c rest hm _ ih =>
      intro b
      have h1 : isWs '\\' = false := by decide
      have h2 : isWs c = false := meta_not_ws hm
      simpa [widen2, h1, h2] using SegSafe.esc c _ (ih false)
  | plain c rest hm hne _ ih =>
      intro b
      by_cases hw : isWs c
      · cases b
        · simpa [widen2, hw] using
            SegSafe.esc 's' _ (SegSafe.plain '+' _ (by decide) (by decide) (by decide) (ih true))
        · simpa [widen2, hw] using ih true
      · have h1 : c ≠ '(' := fun hc => by subst hc; simp [isMeta] at hm
        have h2 : c ≠ '[' := fun hc => by subst hc; simp [isMeta] at hm
        simpa [widen2, hw] using SegSafe.plain c _ hne h1 h2 (ih false)

theorem segSafe_getPatternSegment {seg : Str} (h : '\\' ∉ seg) (opts : SOptions) :
    SegSafe (getPatternSegment seg opts) := by
  unfold getPatternSegment
  by_cases hs : opts.strictWhitespace
  · simpa [hs] using segSafe_of_escForm (escForm_escapeRegexL h)
  · simpa [hs] using segSafe_widen (escForm_escapeRegexL h) false

theorem not_mem_substrL {c : Char} {s : Str} (h : c ∉ s) (a b : Nat) :
    c ∉ substrL s a b := fun hm =>
  h ((List.drop_sublist a s).subset ((List.take_sublist (b - a) (s.drop a)).subset hm))

theorem cnt_assemble (expr : Str) (opts : SOptions) (fm : Option (Str × Str))
    (h : '\\' ∉ expr) (toks : List Token) :
    ∀ i : Nat, cnt1 false false (assemble expr opts fm toks i) = toks.length := by
  induction toks with
  | nil =>
      intro i
      unfold assemble
      by_cases hi : i < expr.length
      · rw [if_pos hi]
        have hs := segSafe_getPatternSegment (not_mem_substrL h i expr.length) opts
        simpa using cnt_segSafe hs []
      · rw [if_neg hi]; rfl
  | cons t ts ih =>
      intro i
      unfold assemble
      rw [List.append_assoc]
      rw [cnt_segSafe (segSafe_getPatternSegment (not_mem_substrL h i t.start) opts)]
      rw [cnt_placeholder fm t]
      rw [ih (t.start + t.rawLen)]
      simp [Nat.add_comm]

theorem mm_preserve (m : List (Option Str)) (names : List Str) (n : Str) (hn : n ∉ names) :
    ∀ (i : Nat) (data : JsObj), jsLookup (mapMatchGo m i names data) n = jsLookup data n := by
  induction names with
  | nil => intro i data; rfl
  | cons nm rest ih =>
      intro i data
      have hnm : n ≠ nm := fun he => hn (he ▸ List.mem_cons_self nm rest)
      have hrest : n ∉ rest := fun hm' => hn (List.mem_cons_of_mem nm hm')
      unfold mapMatchGo
      by_cases hg : i > m.length
      · rw [if_pos hg]
      · rw [if_neg hg, ih hrest, jsLookup_set, if_neg hnm]

theorem mm_char (m : List (Option Str)) (names : List Str) (hnd : names.Nodup) :
    ∀ (i0 : Nat) (data : JsObj), (∀ n ∈ names, jsLookup data n = none) →
      ∀ j (hj : j < names.length),
        jsLookup (mapMatchGo m i0 names data) (names.get ⟨j, hj⟩) =
          if i0 + j ≤ m.length then some (weakParse (arrGet m (i0 + j + 1))) else none := by
  induction names with
  | nil => intro i0 data _ j hj; exact absurd hj (by simp)
  | cons nm rest ih =>
      intro i0 data hfresh j hj
      have hnmr : nm ∉ rest := (List.nodup_cons.mp hnd).1
      have hndr : rest.Nodup := (List.nodup_cons.mp hnd).2
      unfold mapMatchGo
      by_cases hg : i0 > m.length
      · rw [if_pos hg, if_neg (by omega : ¬ i0 + j ≤ m.length)]
        exact hfresh _ (List.get_mem _ j hj)
      · rw [if_neg hg]
        cases j with
        | zero =>
            have hget : (nm :: rest).get ⟨0, hj⟩ = nm := rfl
            rw [hget, mm_preserve m rest nm hnmr, jsLookup_set, if_pos rfl,
              if_pos (by omega : i0 + 0 ≤ m.length)]
        | succ j' =>
            have hj' : j' < rest.length := by simpa using hj
            have hfresh' : ∀ n ∈ rest,
                jsLookup (jsSet data nm (weakParse (arrGet m (i0 + 1)))) n = none := by
              intro n hn
              rw [jsLookup_set, if_neg (fun he : n = nm => hnmr (he ▸ hn))]
              exact hfresh n (List.mem_cons_of_mem nm hn)
            have hrec := ih hndr (i0 + 1) _ hfresh' j' hj'
            have e1 : i0 + 1 + j' = i0 + (j' + 1) := by omega
            rw [e1] at hrec
            simpa using hrec

/-- C1 counterexample: the multi-word placeholder is the greedy `(.*)`,
not a non-greedy catch-all.  Matching the compiled `<tags*>` against a
text in which a later `>` follows the delimiter, the capture crosses the
first `>` and runs to the last one: the result binds `tags` to
`"foo bar> b"`, not to the `"foo bar"` the claim's "never crossing"
reading predicts. -/
theorem c1_greedy_crosses_delimiter :
    matchOp (Simplex.construct "<tags*>".data .undef) "blah <foo bar> b>lah".data =
      .single (some [("tags".data, JsValue.str "foo bar> b".data)]) ∧
    "foo bar> b".data ≠ "foo bar".data := by
  constructor
  · decide
  · decide

/-- C1 amended: the compiled capturing placeholder for a multi-word field
is the greedy catch-all `(.*)`; the field captures the maximal span up to
the last position at which the rest of the pattern still matches, crossing
intermediate occurrences of the delimiter.  On the claim's own example
(one `>` after the field) this still yields `tags = "foo bar"`. -/
theorem c1_multiword_greedy_catchall :
    (createMatcher "<tags*>".data {}).pattern = "<(.*)>".data ∧
    matchOp (Simplex.construct "<tags*>".data .undef) "blah <foo bar> blah".data =
      .single (some [("tags".data, JsValue.str "foo bar".data)]) ∧
    matchOp (Simplex.construct "<tags*>".data .undef) "blah <foo bar> b>lah".data =
      .single (some [("tags".data, JsValue.str "foo bar> b".data)]) := by
  refine ⟨by decide, by decide, by decide⟩

/-- C2: evaluation of `parseFieldMarkers` at the odd-length marker string
`<*>`.  JavaScript's `substring(0, 3 / 2)` truncates the fractional index,
so the left marker is `<` (the first one character), while the right
marker is `*>`: the middle character ends up in the right marker only,
contradicting the claimed (and README-documented) sharing, under which the
left marker would be `<*`.  The even-length case behaves as documented. -/
theorem c2_odd_marker_split_eval :
    parseFieldMarkers (.str "<*>".data) = some ("<".data, "*>".data) ∧
    "<".data ≠ "<*".data ∧
    parseFieldMarkers (.str "[]".data) = some ("[".data, "]".data) := by
  refine ⟨by decide, by decide, by decide⟩

/-- C3 counterexample: for the expression `a\(b\)c` (which contains
backslashes), `escapeRegex` escapes the parentheses but not the
backslashes, so the literal segments `\(` and `\)` become `\\(` and `\\)`
in the pattern — an escaped backslash followed by a bare parenthesis.
The assembled pattern has 4 capturing groups but only 3 field names. -/
theorem c3_backslash_breaks_invariant :
    countCaptureGroups (createMatcher "a\\(b\\)c".data {}).pattern = 4 ∧
    (createMatcher "a\\(b\\)c".data {}).map.length = 3 := by
  refine ⟨by decide, by decide⟩

/-- C3 amended: for every expression containing no backslash character
(and any options), the number of recorded field names equals the number of
capturing groups of the assembled pattern: escaping then neutralizes every
parenthesis and bracket of the literal segments, and each field token
contributes exactly one group. -/
theorem c3_group_count_invariant (expr : Str) (opts : SOptions) (h : '\\' ∉ expr) :
    (createMatcher expr opts).map.length =
      countCaptureGroups (createMatcher expr opts).pattern := by
  unfold createMatcher countCaptureGroups
  simp [cnt_assemble expr opts _ h]

/-- C3 witness: the amended invariant applied to the expression `a=b`. -/
theorem c3_group_count_invariant_witness :
    (createMatcher "a=b".data {}).map.length =
      countCaptureGroups (createMatcher "a=b".data {}).pattern :=
  c3_group_count_invariant "a=b".data {} (by decide)

/-- C4: compiling the empty expression succeeds (empty pattern, no field
names) and a single `match` returns the empty result mapping, but
`matchAll` does not return: its `exec` loop finds a zero-length match at
`lastIndex` and never advances it, so the JavaScript loop runs forever
(the model's `diverges` outcome), contradicting the claimed termination. -/
theorem c4_matchall_empty_expression_diverges :
    (createMatcher [] {}).pattern = [] ∧
    (createMatcher [] {}).map = [] ∧
    matchOp (Simplex.construct [] .undef) "x".data = .single (some []) ∧
    matchAllOp (Simplex.construct [] .undef) "x".data = .diverges := by
  refine ⟨by decide, by decide, by decide, by decide⟩

/-- C5: evaluation of `weakParse`.  All-digit strings become numbers and
other strings pass through unchanged, but the boolean branch returns
`Boolean(string)`, and JavaScript's `Boolean` of any non-empty string is
`true`: the string `"false"` is coerced to `true`, not `false`. -/
theorem c5_weakparse_eval :
    weakParse (some "123".data) = .num 123 ∧
    weakParse (some "12a".data) = .str "12a".data ∧
    weakParse (some "true".data) = .bool true ∧
    weakParse (some "false".data) = .bool true := by
  refine ⟨by decide, by decide, by decide, by decide⟩

/-- C6 counterexample: the constructor at lines 29-36 does not parse flag
strings.  Passing the flag string `g` there leaves `options` as the empty
object (`global` false), and `match` returns a single result instead of
delegating to `matchAll` and returning all matches. -/
theorem c6_v1_flag_string_ignored :
    (Simplex.construct "a".data (.flagStr "g".data)).options.global = false ∧
    matchOp (Simplex.construct "a".data (.flagStr "g".data)) "x y".data =
      .single (some [("a".data, JsValue.str "x".data)]) := by
  refine ⟨rfl, by decide⟩

/-- C6 amended: in the revision whose constructor routes options through
`parseOptions` (lines 656-663 and 794-804), a flag string sets `global`
exactly when it contains the character `g`, and then `match` delegates to
`matchAll`; absent options leave `global` false there.  In the revision at
lines 29-36 a string options argument is discarded (treated as absent), so
`global` stays false. -/
theorem c6_parseoptions_flag_string (s e t : Str) :
    ((V3.construct e (.flagStr s)).options.global = true ↔ 'g' ∈ s) ∧
    ('g' ∈ s → V3.matchOp3 (V3.construct e (.flagStr s)) t =
        .all (V3.matchAllOp3 (V3.construct e (.flagStr s)) t)) ∧
    (V3.construct e .undef).options.global = false ∧
    (effOptions (.flagStr s)).global = false := by
  refine ⟨?_, ?_, rfl, rfl⟩
  · simp [V3.construct, V3.parseOptions]
  · intro hg
    have hgl : (V3.construct e (.flagStr s)).options.global = true := by
      simp [V3.construct, V3.parseOptions, hg]
    simp [V3.matchOp3, hgl]

/-- C6 witness: with the flag string `g`, the `parseOptions`-based
revision's `match` delegates to `matchAll`. -/
theorem c6_parseoptions_flag_string_witness :
    V3.matchOp3 (V3.construct "a=b".data (.flagStr "g".data)) "x=y&z=w".data =
      .all (V3.matchAllOp3 (V3.construct "a=b".data (.flagStr "g".data)) "x=y&z=w".data) :=
  (c6_parseoptions_flag_string "g".data "a=b".data "x=y&z=w".data).2.1 (by decide)

/-- C7 counterexample: a raw match array with one capture mapped onto
four field names.  The loop guard is `i > match.length` (two past the last
capture index), so the two fields after the captured one are *bound* to
the `undefined` value rather than left unset; only the fourth field stays
unset.  This contradicts "binds only the fields with a corresponding
capture". -/
theorem c7_extra_fields_bound_undefined :
    mapMatch [some "x y".data, some "x".data]
        ["a".data, "b".data, "c".data, "d".data] =
      [("a".data, JsValue.str "x".data), ("b".data, JsValue.undef),
        ("c".data, JsValue.undef)] ∧
    jsLookup (mapMatch [some "x y".data, some "x".data]
        ["a".data, "b".data, "c".data, "d".data]) "b".data = some JsValue.undef ∧
    jsLookup (mapMatch [some "x y".data, some "x".data]
        ["a".data, "b".data, "c".data, "d".data]) "d".data = none := by
  refine ⟨by decide, by decide, by decide⟩

/-- C7 amended: for a raw match array `m` and distinct field names, field
`i` is bound exactly when `i ≤ m.length` — that is, every field with a
corresponding capture is bound to its (weakly parsed) capture, the next
two fields (when present) are bound to `undefined` because the guard
`i > match.length` stops two fields late, and all later fields are left
unset; no failure is raised. -/
theorem c7_mapmatch_guard_characterization (m : List (Option Str)) (names : List Str)
    (hnd : names.Nodup) (i : Nat) (hi : i < names.length) :
    jsLookup (mapMatch m names) (names.get ⟨i, hi⟩) =
      if i ≤ m.length then some (weakParse (arrGet m (i + 1))) else none := by
  have := mm_char m names hnd 0 [] (fun n _ => rfl) i hi
  simpa using this

/-- C7 witness: the characterization applied at field index 2 of the
counterexample's inputs (a field past the captures but within the guard),
showing it bound to `undefined`. -/
theorem c7_mapmatch_guard_characterization_witness :
    jsLookup (mapMatch [some "x y".data, some "x".data]
        ["a".data, "b".data, "c".data, "d".data]) "c".data = some JsValue.undef := by
  have h := c7_mapmatch_guard_characterization [some "x y".data, some "x".data]
      ["a".data, "b".data, "c".data, "d".data] (by decide) 2 (by decide)
  exact h.trans (by decide)

/-- C8: with `strictWhitespace` false (the default), every maximal run of
whitespace in an (escaped) literal segment is widened to the regex atom
`\s+` (one-or-more whitespace of any kind), so `a b c` matches
`foo   bar\tbaz`; with `strictWhitespace` true the segment is only
escaped, whitespace must match exactly, and the same text does not
match. -/
theorem c8_whitespace_elasticity :
    (∀ seg : Str, SpecWidensTo (escapeRegexL seg) (getPatternSegment seg {})) ∧
    (∀ seg : Str, getPatternSegment seg { strictWhitespace := true } = escapeRegexL seg) ∧
    matchOp (Simplex.construct "a b c".data .undef) "foo   bar\tbaz".data =
      .single (some [("a".data, JsValue.str "foo".data),
        ("b".data, JsValue.str "bar".data), ("c".data, JsValue.str "baz".data)]) ∧
    matchOp (Simplex.construct "a b c".data (.obj { strictWhitespace := true }))
        "foo   bar\tbaz".data = .single none := by
  refine ⟨fun seg => specWidens (escapeRegexL seg), fun seg => rfl, by decide, by decide⟩

/-- C9: the compiler records the repeated field name twice (no
deduplication); at mapping time JavaScript property assignment makes the
later occurrence overwrite the earlier one (last-write-wins), so matching
`a a` against `x y` yields the single binding `a = "y"`. -/
theorem c9_repeated_field_last_wins :
    (createMatcher "a a".data {}).map = ["a".data, "a".data] ∧
    (∀ (o : JsObj) (k k' : Str) (v : JsValue),
      jsLookup (jsSet o k v) k' = if k' = k then some v else jsLookup o k') ∧
    matchOp (Simplex.construct "a a".data .undef) "x y".data =
      .single (some [("a".data, JsValue.str "y".data)]) := by
  refine ⟨by decide, jsLookup_set, by decide⟩

/-- C10: calling `Simplex` as a plain function takes the guard at lines
30-32 and returns `new Simplex(expression, options)`, so both construction
forms produce instances with identical `match` and `matchAll` behaviour on
every input. -/
theorem c10_call_without_new_equiv (e : Str) (a : OptionsArg) (t : Str) :
    matchOp (Simplex.callAsFunction e a) t = matchOp (Simplex.construct e a) t ∧
    matchAllOp (Simplex.callAsFunction e a) t = matchAllOp (Simplex.construct e a) t :=
  ⟨rfl, rfl⟩
